import Mathlib

/-!
Verification of `src/exercises/find_duplicates.py`, a content-based
duplicate-file finder.  The Python source is embedded shallowly:

* `hashlib.md5` is modelled by a full executable MD5 (RFC 1321) over byte
  lists (`Nat` values; file bytes are `< 256`), with the incremental
  `update`/`hexdigest` interface modelled by its semantic state — the list
  of bytes fed so far (`hexdigest` of that state is the one-shot digest of
  the accumulated bytes, which is the documented contract of `hashlib`).
* the filesystem seen by one run is a list of directory entries in the
  order `Path(directory).rglob("*")` yields them; each entry carries its
  path, whether `is_file()` holds, and either its byte content or the
  I/O error raised when opening/reading it.
* Python exceptions are `Except String`; the source installs no handler in
  `find_duplicates_basic`, so in the embedding an error from
  `get_file_hash` propagates out of the scan (do-notation style).
* `dict` / `defaultdict(list)` is an association list in key-insertion
  order; appending to a bucket keeps member insertion order, matching
  CPython dict semantics.
-/

set_option autoImplicit false
set_option maxRecDepth 100000

namespace FindDup

/-! ## MD5 (model of `hashlib.md5`) -/

/-- Word arithmetic is modulo `2 ^ 32`. -/
def M32 : ℕ := 2 ^ 32

/-- Rotate a 32-bit word left by `s` bits. -/
def rotl (x s : ℕ) : ℕ := ((x <<< s) ||| (x >>> (32 - s))) % M32

/-- The 64 MD5 round constants `K[i] = floor(2^32 * abs(sin(i+1)))`. -/
def md5K : List ℕ :=
  [0xd76aa478, 0xe8c7b756, 0x242070db, 0xc1bdceee,
   0xf57c0faf, 0x4787c62a, 0xa8304613, 0xfd469501,
   0x698098d8, 0x8b44f7af, 0xffff5bb1, 0x895cd7be,
   0x6b901122, 0xfd987193, 0xa679438e, 0x49b40821,
   0xf61e2562, 0xc040b340, 0x265e5a51, 0xe9b6c7aa,
   0xd62f105d, 0x02441453, 0xd8a1e681, 0xe7d3fbc8,
   0x21e1cde6, 0xc33707d6, 0xf4d50d87, 0x455a14ed,
   0xa9e3e905, 0xfcefa3f8, 0x676f02d9, 0x8d2a4c8a,
   0xfffa3942, 0x8771f681, 0x6d9d6122, 0xfde5380c,
   0xa4beea44, 0x4bdecfa9, 0xf6bb4b60, 0xbebfbc70,
   0x289b7ec6, 0xeaa127fa, 0xd4ef3085, 0x04881d05,
   0xd9d4d039, 0xe6db99e5, 0x1fa27cf8, 0xc4ac5665,
   0xf4292244, 0x432aff97, 0xab9423a7, 0xfc93a039,
   0x655b59c3, 0x8f0ccc92, 0xffeff47d, 0x85845dd1,
   0x6fa87e4f, 0xfe2ce6e0, 0xa3014314, 0x4e0811a1,
   0xf7537e82, 0xbd3af235, 0x2ad7d2bb, 0xeb86d391]

/-- The 64 per-round left-rotation amounts. -/
def md5s : List ℕ :=
  [7, 12, 17, 22, 7, 12, 17, 22, 7, 12, 17, 22, 7, 12, 17, 22,
   5,  9, 14, 20, 5,  9, 14, 20, 5,  9, 14, 20, 5,  9, 14, 20,
   4, 11, 16, 23, 4, 11, 16, 23, 4, 11, 16, 23, 4, 11, 16, 23,
   6, 10, 15, 21, 6, 10, 15, 21, 6, 10, 15, 21, 6, 10, 15, 21]

/-- The nonlinear mixing function of round `i`. -/
def md5F (i b c d : ℕ) : ℕ :=
  if i < 16 then (b &&& c) ||| ((0xffffffff ^^^ b) &&& d)
  else if i < 32 then (d &&& b) ||| ((0xffffffff ^^^ d) &&& c)
  else if i < 48 then b ^^^ c ^^^ d
  else c ^^^ (b ||| (0xffffffff ^^^ d))

/-- The message-word index used by round `i`. -/
def md5g (i : ℕ) : ℕ :=
  if i < 16 then i
  else if i < 32 then (5 * i + 1) % 16
  else if i < 48 then (3 * i + 5) % 16
  else (7 * i) % 16

/-- The four 32-bit chaining words of the MD5 state. -/
structure MD5State where
  a : ℕ
  b : ℕ
  c : ℕ
  d : ℕ
deriving DecidableEq

/-- The MD5 initialization vector. -/
def md5Init : MD5State := ⟨0x67452301, 0xefcdab89, 0x98badcfe, 0x10325476⟩

/-- One of the 64 rounds applied to a 16-word message block `M`. -/
def md5Round (M : List ℕ) (st : MD5State) (i : ℕ) : MD5State :=
  let f := (md5F i st.b st.c st.d + st.a + md5K.getD i 0 + M.getD (md5g i) 0) % M32
  ⟨st.d, (st.b + rotl f (md5s.getD i 0)) % M32, st.b, st.c⟩

/-- Process one 16-word block: 64 rounds, then add into the chaining state. -/
def md5ProcessBlock (st : MD5State) (M : List ℕ) : MD5State :=
  let r := (List.range 64).foldl (md5Round M) st
  ⟨(st.a + r.a) % M32, (st.b + r.b) % M32, (st.c + r.c) % M32, (st.d + r.d) % M32⟩

/-- Render `n` as `k` little-endian bytes. -/
def natLEBytes (n k : ℕ) : List ℕ :=
  (List.range k).map fun i => (n >>> (8 * i)) % 256

/-- MD5 padding: append `0x80`, zero-fill to 56 mod 64 bytes, then the
original bit length as a 64-bit little-endian quantity. -/
def md5Pad (msg : List ℕ) : List ℕ :=
  let len := msg.length
  let z := (64 + 56 - (len + 1) % 64) % 64
  msg ++ [0x80] ++ List.replicate z 0 ++ natLEBytes ((8 * len) % 2 ^ 64) 8

/-- Split a 64-byte block into 16 little-endian 32-bit words. -/
def bytesToWordsLE (bs : List ℕ) : List ℕ :=
  (List.range 16).map fun i =>
    bs.getD (4 * i) 0 + 256 * bs.getD (4 * i + 1) 0 +
      65536 * bs.getD (4 * i + 2) 0 + 16777216 * bs.getD (4 * i + 3) 0

/-- Structural worker for `chunksOf`: `fuel` bounds the number of reads, so
the recursion is structural and reduces inside the kernel. -/
def chunksOfAux : ℕ → ℕ → List ℕ → List (List ℕ)
  | 0, _, _ => []
  | _ + 1, _, [] => []
  | fuel + 1, n, x :: xs =>
    ((x :: xs).take (n + 1)) :: chunksOfAux fuel n ((x :: xs).drop (n + 1))

/-- Split a list into consecutive chunks of `n + 1` elements (the last chunk
may be shorter); every chunk of a nonempty list is nonempty, mirroring a
read loop that stops on the first empty read. -/
def chunksOf (n : ℕ) (l : List ℕ) : List (List ℕ) :=
  chunksOfAux l.length n l

/-- The MD5 chaining state after absorbing a whole (padded) message. -/
def md5Digest (msg : List ℕ) : MD5State :=
  (chunksOf 63 (md5Pad msg)).foldl (fun st blk => md5ProcessBlock st (bytesToWordsLE blk)) md5Init

/-- The 16 digest bytes of a message. -/
def md5Bytes (msg : List ℕ) : List ℕ :=
  natLEBytes (md5Digest msg).a 4 ++ natLEBytes (md5Digest msg).b 4 ++
    natLEBytes (md5Digest msg).c 4 ++ natLEBytes (md5Digest msg).d 4

/-- Lowercase hexadecimal digit characters. -/
def hexDigitChar (n : ℕ) : Char :=
  if n < 10 then Char.ofNat (48 + n) else Char.ofNat (87 + n)

/-- Two lowercase hex characters for one byte. -/
def byteToHex (b : ℕ) : List Char := [hexDigitChar (b / 16), hexDigitChar (b % 16)]

/-- The 32-character lowercase hex digest of a message, as `hexdigest()`
renders it. -/
def md5hex (msg : List ℕ) : String := ⟨(md5Bytes msg).flatMap byteToHex⟩

/-! ## The incremental hasher interface of `hashlib`

A hasher value is modelled by its semantic state: the bytes fed so far.
`update` feeds more bytes, `hexdigest` is the digest of everything fed. -/

/-- The state of `hashlib.md5()` after some `update` calls. -/
abbrev Hasher : Type := List ℕ

/-- A fresh `hashlib.md5()` object: nothing fed yet. -/
def hasherNew : Hasher := []

/-- Feed one chunk into the hasher (`hasher.update(chunk)`). -/
def hasherUpdate (h : Hasher) (chunk : List ℕ) : Hasher := List.append h chunk

/-- Render the digest of everything fed so far (`hasher.hexdigest()`). -/
def hexdigest (h : Hasher) : String := md5hex h

/-! ## The embedded program

`src/exercises/find_duplicates.py`, lines 5-27. -/

deriving instance DecidableEq for Except

/-- One entry yielded by the `Path(directory).rglob("*")` traversal: its
path, whether `filepath.is_file()` holds, and the outcome of opening and
reading it — either the byte content or the I/O error that the attempt
raises. -/
structure Entry where
  path : String
  isFile : Bool
  data : Except String (List ℕ)
deriving DecidableEq

/-- The filesystem as one run sees it: the entries under the scanned root
in `rglob` yield order. -/
abbrev FS : Type := List Entry

/-- The chunked digest loop of `get_file_hash` applied to byte content
that was opened successfully: `while chunk := f.read(8192): hasher.update(chunk)`
then `hasher.hexdigest()`.  `f.read(8192)` returns the successive 8192-byte
chunks of the content and then `b""`. -/
def get_file_hash_content (content : List ℕ) : String :=
  hexdigest ((chunksOf 8191 content).foldl hasherUpdate hasherNew)

/-- The function `get_file_hash(filepath)`: opening the file yields its bytes or raises;
on success the chunk loop digests them. -/
def get_file_hash (e : Entry) : Except String String :=
  match e.data with
  | .error msg => .error msg
  | .ok content => .ok (get_file_hash_content content)

/-- The byte content an entry would deliver, defaulting to `[]`; used only
to phrase properties of runs in which every file is readable. -/
def contentD (e : Entry) : List ℕ :=
  match e.data with
  | .error _ => []
  | .ok content => content

/-- The fingerprint of a readable entry. -/
def hashOf (e : Entry) : String := get_file_hash_content (contentD e)

/-- The duplicate index: fingerprint buckets in key-insertion order, each
bucket holding paths in insertion order (`defaultdict(list)` plus dict
iteration order). -/
abbrev Index : Type := List (String × List String)

/-- The statement `hash_dict[file_hash].append(filepath)`: append to the bucket of `h`,
creating it at the end of the dict if absent. -/
def idxInsert : Index → String → String → Index
  | [], h, p => [(h, [p])]
  | (k, ps) :: rest, h, p =>
    if k = h then (k, List.append ps [p]) :: rest
    else (k, ps) :: idxInsert rest h p

/-- The traversal loop of `find_duplicates_basic`: for each entry, if it is
a regular file, hash it and append the path to that fingerprint's bucket.
An exception from `get_file_hash` propagates (the source has no handler). -/
def scanFiles : List Entry → Index → Except String Index
  | [], idx => .ok idx
  | e :: rest, idx =>
    if e.isFile then
      match get_file_hash e with
      | .error msg => .error msg
      | .ok h => scanFiles rest (idxInsert idx h e.path)
    else scanFiles rest idx

/-- The function `find_duplicates_basic(directory)`: build the full index, then keep the
buckets with more than one member, in dict order. -/
def find_duplicates_basic (fs : FS) : Except String Index :=
  match scanFiles fs [] with
  | .error msg => .error msg
  | .ok idx => .ok (idx.filter fun b => 1 < b.2.length)

/-! ### Pure description of an error-free run -/

/-- Every regular file of the run can be opened and read. -/
def AllReadable (fs : FS) : Prop :=
  ∀ e ∈ fs, e.isFile = true → e.data = .ok (contentD e)

instance (fs : FS) : Decidable (AllReadable fs) := by
  unfold AllReadable; infer_instance

/-- The loop of `find_duplicates_basic` on an error-free run. -/
def scanFilesPure : List Entry → Index → Index
  | [], idx => idx
  | e :: rest, idx =>
    if e.isFile then scanFilesPure rest (idxInsert idx (hashOf e) e.path)
    else scanFilesPure rest idx

/-- The full fingerprint-to-paths index of a run (before restriction to
buckets of two or more). -/
def fullIndex (fs : FS) : Index := scanFilesPure fs []

/-- The regular files discovered by the traversal, in discovery order. -/
def filePaths (fs : FS) : List String :=
  (fs.filter fun e => e.isFile).map fun e => e.path

/-! ### Instrumented scan: the paths on which `get_file_hash` is invoked -/

/-- The same loop, also recording each path passed to `get_file_hash`, in
call order; an exception truncates the log exactly where the run stops. -/
def scanFilesLog : List Entry → List String → List String
  | [], log => log
  | e :: rest, log =>
    if e.isFile then
      match get_file_hash e with
      | .error _ => List.append log [e.path]
      | .ok _ => scanFilesLog rest (List.append log [e.path])
    else scanFilesLog rest log

/-! ### The `__main__` report (lines 29-37) -/

/-- The lines printed for the returned duplicates dict: for each group the
f-string `f"Hash:"` (which contains no placeholder, so the fingerprint
value is not interpolated), then `f" - {f}"` per member, then the literal
string `"/n"`.  An empty dict prints nothing. -/
def reportLines (dup : Index) : List String :=
  dup.flatMap fun b =>
    "Hash:" :: List.append (b.2.map fun f => String.append " - " f) ["/n"]

/-! ### State-threaded run for the frame property

Every filesystem primitive the pipeline uses is embedded as a state
transformer on `FS`; `rglob` enumerates without modifying, and an
`open(filepath, "rb")` plus its reads deliver the entry's data without
modifying.  The pipeline composed from them returns the final filesystem. -/

/-- The traversal `Path(directory).rglob("*")` as a state transformer. -/
def rglobST (fs : FS) : List Entry × FS := (fs, fs)

/-- The digest call `get_file_hash` as a state transformer: read-only binary access. -/
def get_file_hashST (e : Entry) (fs : FS) : Except String String × FS :=
  (get_file_hash e, fs)

/-- The traversal loop threading the filesystem state. -/
def scanFilesST : List Entry → Index → FS → Except String Index × FS
  | [], idx, fs => (.ok idx, fs)
  | e :: rest, idx, fs =>
    if e.isFile then
      match get_file_hashST e fs with
      | (.error msg, fs') => (.error msg, fs')
      | (.ok h, fs') => scanFilesST rest (idxInsert idx h e.path) fs'
    else scanFilesST rest idx fs

/-- The pipeline `find_duplicates_basic` threading the filesystem state. -/
def find_duplicates_basicST (fs : FS) : Except String Index × FS :=
  let r := scanFilesST (rglobST fs).1 [] (rglobST fs).2
  (match r.1 with
   | .error msg => .error msg
   | .ok idx => .ok (idx.filter fun b => 1 < b.2.length), r.2)

/-! ## Helper lemmas -/

theorem chunksOfAux_flatten :
    ∀ (fuel n : ℕ) (l : List ℕ), l.length ≤ fuel → (chunksOfAux fuel n l).flatten = l := by
  intro fuel
  induction fuel with
  | zero =>
    intro n l hl
    cases l with
    | nil => rfl
    | cons x xs => simp at hl
  | succ fuel ih =>
    intro n l hl
    cases l with
    | nil => rfl
    | cons x xs =>
      simp only [chunksOfAux, List.flatten_cons]
      rw [ih n _ (by simp only [List.length_drop, List.length_cons]; simp at hl; omega),
        List.take_append_drop]

theorem chunksOf_flatten (n : ℕ) (l : List ℕ) : (chunksOf n l).flatten = l :=
  chunksOfAux_flatten _ _ _ le_rfl

theorem foldl_hasherUpdate (ls : List (List ℕ)) (acc : Hasher) :
    ls.foldl hasherUpdate acc = acc ++ ls.flatten := by
  induction ls generalizing acc with
  | nil => simp
  | cons c cs ih => simp [ih, hasherUpdate, List.append_assoc]

/-- First-match bucket lookup in the index. -/
def idxFind : Index → String → List String
  | [], _ => []
  | (k, ps) :: rest, h => if k = h then ps else idxFind rest h

/-- The fingerprints present in the index, in insertion order. -/
def idxKeys (idx : Index) : List String := idx.map Prod.fst

/-- All paths stored in the index, bucket by bucket. -/
def idxPaths : Index → List String
  | [] => []
  | b :: rest => b.2 ++ idxPaths rest

theorem idxFind_insert (idx : Index) (h p h' : String) :
    idxFind (idxInsert idx h p) h' =
      if h' = h then idxFind idx h' ++ [p] else idxFind idx h' := by
  induction idx with
  | nil =>
    by_cases hh : h' = h
    · subst hh; simp [idxInsert, idxFind]
    · have hh2 : ¬ h = h' := fun hc => hh hc.symm
      simp [idxInsert, idxFind, hh, hh2]
  | cons b rest ih =>
    obtain ⟨k, ps⟩ := b
    simp only [idxInsert]
    by_cases hk : k = h
    · subst hk
      simp only [if_pos rfl, idxFind]
      by_cases hh : k = h'
      · subst hh; simp
      · have hh2 : ¬ h' = k := fun hc => hh hc.symm
        simp [hh, hh2]
    · simp only [if_neg hk, idxFind]
      by_cases hkh : k = h'
      · subst hkh
        have hk2 : ¬ k = h := hk
        simp [hk2]
      · simp [hkh, ih]

theorem idxKeys_insert (idx : Index) (h p : String) :
    idxKeys (idxInsert idx h p) =
      if h ∈ idxKeys idx then idxKeys idx else idxKeys idx ++ [h] := by
  induction idx with
  | nil => simp [idxInsert, idxKeys]
  | cons b rest ih =>
    obtain ⟨k, ps⟩ := b
    by_cases hk : k = h
    · subst hk
      simp [idxInsert, idxKeys]
    · simp only [idxInsert, if_neg hk, idxKeys, List.map_cons, List.mem_cons]
      have : ¬ h = k := fun hc => hk hc.symm
      simp only [idxKeys] at ih
      rw [ih]
      by_cases hm : h ∈ rest.map Prod.fst <;> simp [hm, this]

theorem idxKeys_insert_nodup (idx : Index) (h p : String)
    (hn : (idxKeys idx).Nodup) : (idxKeys (idxInsert idx h p)).Nodup := by
  rw [idxKeys_insert]
  by_cases hm : h ∈ idxKeys idx
  · simp [hm, hn]
  · simp only [hm, if_false]
    simp [List.nodup_append, hn, hm]

theorem idxFind_mem (idx : Index) (h : String) (hne : idxFind idx h ≠ []) :
    (h, idxFind idx h) ∈ idx := by
  induction idx with
  | nil => simp [idxFind] at hne
  | cons b rest ih =>
    obtain ⟨k, ps⟩ := b
    by_cases hk : k = h
    · subst hk
      simp [idxFind]
    · simp only [idxFind, if_neg hk] at hne ⊢
      exact List.mem_cons_of_mem _ (ih hne)

theorem idxFind_of_mem (idx : Index) (k : String) (ps : List String)
    (hn : (idxKeys idx).Nodup) (hm : (k, ps) ∈ idx) : idxFind idx k = ps := by
  induction idx with
  | nil => simp at hm
  | cons b rest ih =>
    obtain ⟨k', ps'⟩ := b
    simp only [idxKeys, List.map_cons, List.nodup_cons] at hn
    rcases List.mem_cons.mp hm with hb | hb
    · injection hb with h1 h2
      subst h1; subst h2
      simp [idxFind]
    · have hkne : k' ≠ k := by
        intro hc; subst hc
        exact hn.1 (List.mem_map_of_mem Prod.fst hb)
      simp only [idxFind, if_neg hkne]
      exact ih (by simpa [idxKeys] using hn.2) hb

theorem idxPaths_insert_perm (idx : Index) (h p : String) :
    (idxPaths (idxInsert idx h p)).Perm (idxPaths idx ++ [p]) := by
  induction idx with
  | nil => simp [idxInsert, idxPaths]
  | cons b rest ih =>
    obtain ⟨k, ps⟩ := b
    by_cases hk : k = h
    · subst hk
      simp only [idxInsert, if_pos rfl, idxPaths, List.append_eq]
      rw [List.append_assoc, List.append_assoc]
      exact (List.perm_append_left_iff _).mpr List.perm_append_comm
    · simp only [idxInsert, if_neg hk, idxPaths]
      calc (ps ++ idxPaths (idxInsert rest h p)).Perm
            (ps ++ (idxPaths rest ++ [p])) := (List.perm_append_left_iff _).mpr ih
        _ = (ps ++ idxPaths rest) ++ [p] := (List.append_assoc ..).symm

/-- The regular files of the run whose fingerprint is `h`, in discovery
order, as paths. -/
def dupFilesWith (fs : FS) (h : String) : List String :=
  (fs.filter fun e => e.isFile && (hashOf e == h)).map fun e => e.path

theorem scanFilesPure_find (fs : FS) (h : String) :
    ∀ idx, idxFind (scanFilesPure fs idx) h = idxFind idx h ++ dupFilesWith fs h := by
  induction fs with
  | nil => intro idx; simp [scanFilesPure, dupFilesWith]
  | cons e rest ih =>
    intro idx
    cases hf : e.isFile with
    | false => simp [scanFilesPure, hf, dupFilesWith, List.filter_cons, ih]
    | true =>
      have hstep : scanFilesPure (e :: rest) idx =
          scanFilesPure rest (idxInsert idx (hashOf e) e.path) := by
        simp [scanFilesPure, hf]
      rw [hstep, ih, idxFind_insert]
      by_cases hh : h = hashOf e
      · have hb : (e.isFile && (hashOf e == h)) = true := by simp [hf, hh]
        have hd : dupFilesWith (e :: rest) h = e.path :: dupFilesWith rest h := by
          simp [dupFilesWith, List.filter_cons, hb]
        rw [if_pos hh, hd, List.append_assoc, List.singleton_append]
      · have hb : (e.isFile && (hashOf e == h)) = false := by
          simp [hf]
          exact fun hc => hh hc.symm
        have hd : dupFilesWith (e :: rest) h = dupFilesWith rest h := by
          simp [dupFilesWith, List.filter_cons, hb]
        rw [if_neg hh, hd]

theorem scanFilesPure_keys_nodup (fs : FS) :
    ∀ idx, (idxKeys idx).Nodup → (idxKeys (scanFilesPure fs idx)).Nodup := by
  induction fs with
  | nil => intro idx hn; simpa [scanFilesPure] using hn
  | cons e rest ih =>
    intro idx hn
    cases hf : e.isFile with
    | false => simpa [scanFilesPure, hf] using ih idx hn
    | true =>
      simp only [scanFilesPure, hf, if_pos rfl]
      exact ih _ (idxKeys_insert_nodup idx (hashOf e) e.path hn)

theorem scanFilesPure_paths_perm (fs : FS) :
    ∀ idx, (idxPaths (scanFilesPure fs idx)).Perm (idxPaths idx ++ filePaths fs) := by
  induction fs with
  | nil => intro idx; simp [scanFilesPure, filePaths]
  | cons e rest ih =>
    intro idx
    cases hf : e.isFile with
    | false => simpa [scanFilesPure, hf, filePaths, List.filter_cons] using ih idx
    | true =>
      simp only [scanFilesPure, hf, if_pos rfl]
      have h1 := ih (idxInsert idx (hashOf e) e.path)
      have h2 : (idxPaths (idxInsert idx (hashOf e) e.path) ++ filePaths rest).Perm
          ((idxPaths idx ++ [e.path]) ++ filePaths rest) :=
        (idxPaths_insert_perm idx (hashOf e) e.path).append_right _
      refine (h1.trans h2).trans ?_
      simp [filePaths, List.filter_cons, hf, List.append_assoc]

theorem scanFiles_ok (fs : FS) (hr : AllReadable fs) :
    ∀ idx, scanFiles fs idx = .ok (scanFilesPure fs idx) := by
  induction fs with
  | nil => intro idx; rfl
  | cons e rest ih =>
    intro idx
    have hrest : AllReadable rest := fun e' he' => hr e' (List.mem_cons_of_mem _ he')
    cases hf : e.isFile with
    | false => simp [scanFiles, scanFilesPure, hf, ih hrest]
    | true =>
      have hdata : e.data = .ok (contentD e) := hr e (List.mem_cons_self ..) hf
      simp [scanFiles, scanFilesPure, hf, get_file_hash, hdata, hashOf, ih hrest]

theorem find_duplicates_basic_ok (fs : FS) (hr : AllReadable fs) :
    find_duplicates_basic fs = .ok ((fullIndex fs).filter fun b => 1 < b.2.length) := by
  simp [find_duplicates_basic, scanFiles_ok fs hr, fullIndex]

theorem scanFilesLog_eq (fs : FS) (hr : AllReadable fs) :
    ∀ log, scanFilesLog fs log = log ++ filePaths fs := by
  induction fs with
  | nil => intro log; simp [scanFilesLog, filePaths]
  | cons e rest ih =>
    intro log
    have hrest : AllReadable rest := fun e' he' => hr e' (List.mem_cons_of_mem _ he')
    cases hf : e.isFile with
    | false => simp [scanFilesLog, hf, filePaths, List.filter_cons, ih hrest]
    | true =>
      have hdata : e.data = .ok (contentD e) := hr e (List.mem_cons_self ..) hf
      simp [scanFilesLog, hf, get_file_hash, hdata, ih hrest, filePaths,
        List.filter_cons, List.append_assoc]

theorem two_mem_le_length {α : Type} {a b : α} {l : List α}
    (ha : a ∈ l) (hb : b ∈ l) (hne : a ≠ b) : 2 ≤ l.length := by
  match l with
  | [] => simp at ha
  | [x] =>
    have hax : a = x := by simpa using ha
    have hbx : b = x := by simpa using hb
    exact absurd (hax.trans hbx.symm) hne
  | x :: y :: t =>
    simp only [List.length_cons]
    omega

theorem get_file_hash_content_eq (content : List ℕ) :
    get_file_hash_content content = md5hex content := by
  unfold get_file_hash_content hexdigest
  rw [foldl_hasherUpdate]
  simp [hasherNew, chunksOf_flatten]

/-- Two distinct readable regular files with the same fingerprint always
end up together in a returned group whose key is that fingerprint. -/
theorem mem_dup_group (fs : FS) (hr : AllReadable fs) (e1 e2 : Entry)
    (h1 : e1 ∈ fs) (h2 : e2 ∈ fs) (hf1 : e1.isFile = true) (hf2 : e2.isFile = true)
    (hne : e1.path ≠ e2.path) (hh : hashOf e1 = hashOf e2) :
    ∃ dup, find_duplicates_basic fs = .ok dup ∧
      ∃ g ∈ dup, g.1 = hashOf e1 ∧ e1.path ∈ g.2 ∧ e2.path ∈ g.2 := by
  refine ⟨(fullIndex fs).filter fun b => 1 < b.2.length,
    by simpa [fullIndex] using find_duplicates_basic_ok fs hr, ?_⟩
  have hbucket : idxFind (fullIndex fs) (hashOf e1) = dupFilesWith fs (hashOf e1) := by
    simpa [idxFind] using scanFilesPure_find fs (hashOf e1) []
  have hm1 : e1.path ∈ dupFilesWith fs (hashOf e1) := by
    unfold dupFilesWith
    exact List.mem_map_of_mem (fun e : Entry => e.path)
      (List.mem_filter.mpr ⟨h1, by simp [hf1]⟩)
  have hm2 : e2.path ∈ dupFilesWith fs (hashOf e1) := by
    unfold dupFilesWith
    exact List.mem_map_of_mem (fun e : Entry => e.path)
      (List.mem_filter.mpr ⟨h2, by simp [hf2, hh.symm]⟩)
  have hlen : 2 ≤ (dupFilesWith fs (hashOf e1)).length :=
    two_mem_le_length hm1 hm2 hne
  have hne' : idxFind (fullIndex fs) (hashOf e1) ≠ [] := by
    rw [hbucket]
    intro hc
    rw [hc] at hlen
    simp at hlen
  have hmem : (hashOf e1, idxFind (fullIndex fs) (hashOf e1)) ∈ fullIndex fs :=
    idxFind_mem _ _ hne'
  refine ⟨(hashOf e1, dupFilesWith fs (hashOf e1)), ?_, rfl, hm1, hm2⟩
  refine List.mem_filter.mpr ⟨?_, ?_⟩
  · rw [← hbucket]; exact hmem
  · simpa using Nat.lt_of_lt_of_le Nat.one_lt_two hlen

/-- Concrete run from the spec's test scenario: `x/1.txt` and `y/2.txt`
both hold `"hello"`, `z/3.txt` holds `"world"`, and `x` is a directory. -/
def fsA : FS :=
  [⟨"x/1.txt", true, .ok [104, 101, 108, 108, 111]⟩,
   ⟨"x", false, .ok []⟩,
   ⟨"y/2.txt", true, .ok [104, 101, 108, 108, 111]⟩,
   ⟨"z/3.txt", true, .ok [119, 111, 114, 108, 100]⟩]

/-- The first `"hello"` file of `fsA`. -/
def eX1 : Entry := ⟨"x/1.txt", true, .ok [104, 101, 108, 108, 111]⟩

/-- The second `"hello"` file of `fsA`. -/
def eY2 : Entry := ⟨"y/2.txt", true, .ok [104, 101, 108, 108, 111]⟩

/-- C1: two regular files under the root with byte-identical content are
always placed together in one group of the returned mapping, whatever
their names or locations. -/
theorem identical_content_same_group (fs : FS) (hr : AllReadable fs)
    (e1 e2 : Entry) (h1 : e1 ∈ fs) (h2 : e2 ∈ fs)
    (hf1 : e1.isFile = true) (hf2 : e2.isFile = true)
    (hne : e1.path ≠ e2.path) (hc : contentD e1 = contentD e2) :
    ∃ dup, find_duplicates_basic fs = .ok dup ∧
      ∃ g ∈ dup, e1.path ∈ g.2 ∧ e2.path ∈ g.2 := by
  obtain ⟨dup, hdup, g, hg, _, hp1, hp2⟩ :=
    mem_dup_group fs hr e1 e2 h1 h2 hf1 hf2 hne (by simp [hashOf, hc])
  exact ⟨dup, hdup, g, hg, hp1, hp2⟩

/-- C1 witness: the scenario `fsA` satisfies every hypothesis and the two
`"hello"` files are grouped. -/
theorem identical_content_same_group_witness :
    (AllReadable fsA ∧ eX1 ∈ fsA ∧ eY2 ∈ fsA ∧ eX1.isFile = true ∧
      eY2.isFile = true ∧ eX1.path ≠ eY2.path ∧ contentD eX1 = contentD eY2) ∧
    ∃ dup, find_duplicates_basic fsA = .ok dup ∧
      ∃ g ∈ dup, eX1.path ∈ g.2 ∧ eY2.path ∈ g.2 :=
  ⟨⟨by decide, by decide, by decide, by decide, by decide, by decide, by decide⟩,
    identical_content_same_group fsA (by decide) eX1 eY2 (by decide) (by decide)
      (by decide) (by decide) (by decide) (by decide)⟩

/-- C2: the returned mapping is exactly the full fingerprint index
restricted to the buckets having at least two members, in first-seen bucket
order; each returned bucket lists its members in discovery order; no
smaller bucket is returned. -/
theorem duplicates_are_restriction (fs : FS) (hr : AllReadable fs) :
    find_duplicates_basic fs = .ok ((fullIndex fs).filter fun b => 2 ≤ b.2.length) ∧
    ∀ b ∈ (fullIndex fs).filter (fun b => 2 ≤ b.2.length), b.2 = dupFilesWith fs b.1 := by
  constructor
  · exact find_duplicates_basic_ok fs hr
  · intro b hb
    have hbfull : b ∈ fullIndex fs := (List.mem_filter.mp hb).1
    have hnodup : (idxKeys (fullIndex fs)).Nodup :=
      scanFilesPure_keys_nodup fs [] (by simp [idxKeys])
    have hfind : idxFind (fullIndex fs) b.1 = b.2 := by
      refine idxFind_of_mem _ b.1 b.2 hnodup ?_
      cases b; exact hbfull
    rw [← hfind]
    simpa [idxFind] using scanFilesPure_find fs b.1 []

/-- C2 witness: the restriction equation instantiated on the scenario
`fsA`. -/
theorem duplicates_are_restriction_witness :
    AllReadable fsA ∧
    (find_duplicates_basic fsA = .ok ((fullIndex fsA).filter fun b => 2 ≤ b.2.length) ∧
      ∀ b ∈ (fullIndex fsA).filter (fun b => 2 ≤ b.2.length), b.2 = dupFilesWith fsA b.1) :=
  ⟨by decide, duplicates_are_restriction fsA (by decide)⟩

/-- Modelled from the spec: the "load whole file then hash" reference that
the streaming digester is claimed to refine — a single `update` with the
entire byte content, then `hexdigest`. -/
def wholeFileHash (content : List ℕ) : String :=
  hexdigest (hasherUpdate hasherNew content)

/-- C3: the chunked read loop of `get_file_hash` (successive 8192-byte
chunks fed into the digest accumulator until a read returns empty) produces
the same fingerprint as hashing the whole content in one pass. -/
theorem chunked_hash_refines_whole (content : List ℕ) :
    get_file_hash_content content = wholeFileHash content := by
  rw [get_file_hash_content_eq]
  simp [wholeFileHash, hexdigest, hasherUpdate, hasherNew]

/-- C5: in one error-free run over distinct paths, `get_file_hash` is
invoked exactly once per discovered regular file (in discovery order), the
buckets of the index together hold each discovered path exactly once, and
no path occurs twice — neither inside one bucket nor across two buckets. -/
theorem every_path_hashed_once (fs : FS) (hr : AllReadable fs)
    (hn : (filePaths fs).Nodup) :
    scanFilesLog fs [] = filePaths fs ∧
    (idxPaths (fullIndex fs)).Perm (filePaths fs) ∧
    (idxPaths (fullIndex fs)).Nodup := by
  have hperm : (idxPaths (fullIndex fs)).Perm (filePaths fs) := by
    simpa [idxPaths, fullIndex] using scanFilesPure_paths_perm fs []
  exact ⟨by simpa using scanFilesLog_eq fs hr [], hperm, hperm.nodup_iff.mpr hn⟩

/-- C5 witness: the uniqueness invariants instantiated on the scenario
`fsA`. -/
theorem every_path_hashed_once_witness :
    (AllReadable fsA ∧ (filePaths fsA).Nodup) ∧
    (scanFilesLog fsA [] = filePaths fsA ∧
      (idxPaths (fullIndex fsA)).Perm (filePaths fsA) ∧
      (idxPaths (fullIndex fsA)).Nodup) :=
  ⟨⟨by decide, by decide⟩, every_path_hashed_once fsA (by decide) (by decide)⟩

/-- Two empty regular files at distinct paths. -/
def fsE : FS := [⟨"a.txt", true, .ok []⟩, ⟨"b.txt", true, .ok []⟩]

/-- The first empty file of `fsE`. -/
def eEa : Entry := ⟨"a.txt", true, .ok []⟩

/-- The second empty file of `fsE`. -/
def eEb : Entry := ⟨"b.txt", true, .ok []⟩

/-- C6: every zero-byte file digests to the fixed constant
`d41d8cd98f00b204e9800998ecf8427e`, and any two empty regular files are
returned together in a group keyed by that constant — no error, no special
case. -/
theorem empty_files_grouped (fs : FS) (hr : AllReadable fs) (e1 e2 : Entry)
    (h1 : e1 ∈ fs) (h2 : e2 ∈ fs) (hf1 : e1.isFile = true) (hf2 : e2.isFile = true)
    (hne : e1.path ≠ e2.path) (hc1 : e1.data = .ok []) (hc2 : e2.data = .ok []) :
    get_file_hash_content [] = "d41d8cd98f00b204e9800998ecf8427e" ∧
    ∃ dup, find_duplicates_basic fs = .ok dup ∧
      ∃ g ∈ dup, g.1 = "d41d8cd98f00b204e9800998ecf8427e" ∧
        e1.path ∈ g.2 ∧ e2.path ∈ g.2 := by
  have hconst : get_file_hash_content [] = "d41d8cd98f00b204e9800998ecf8427e" := by
    decide
  have hcd1 : contentD e1 = [] := by simp [contentD, hc1]
  have hcd2 : contentD e2 = [] := by simp [contentD, hc2]
  obtain ⟨dup, hdup, g, hg, hgh, hp1, hp2⟩ :=
    mem_dup_group fs hr e1 e2 h1 h2 hf1 hf2 hne (by simp [hashOf, hcd1, hcd2])
  refine ⟨hconst, dup, hdup, g, hg, ?_, hp1, hp2⟩
  rw [hgh]
  simp [hashOf, hcd1, hconst]

/-- C6 witness: the two empty files of `fsE` are grouped under the constant
digest. -/
theorem empty_files_grouped_witness :
    (AllReadable fsE ∧ eEa ∈ fsE ∧ eEb ∈ fsE ∧ eEa.path ≠ eEb.path) ∧
    (get_file_hash_content [] = "d41d8cd98f00b204e9800998ecf8427e" ∧
      ∃ dup, find_duplicates_basic fsE = .ok dup ∧
        ∃ g ∈ dup, g.1 = "d41d8cd98f00b204e9800998ecf8427e" ∧
          eEa.path ∈ g.2 ∧ eEb.path ∈ g.2) :=
  ⟨⟨by decide, by decide, by decide, by decide⟩,
    empty_files_grouped fsE (by decide) eEa eEb (by decide) (by decide) (by decide)
      (by decide) (by decide) (by decide) (by decide)⟩

theorem scanFilesST_eq (entries : List Entry) :
    ∀ idx fs0, scanFilesST entries idx fs0 = (scanFiles entries idx, fs0) := by
  induction entries with
  | nil => intro idx fs0; rfl
  | cons e rest ih =>
    intro idx fs0
    cases hf : e.isFile with
    | false => simp [scanFilesST, scanFiles, hf, ih]
    | true =>
      cases hge : get_file_hash e with
      | error msg => simp [scanFilesST, scanFiles, hf, get_file_hashST, hge]
      | ok h => simp [scanFilesST, scanFiles, hf, get_file_hashST, hge, ih]

/-- C9: the pipeline only reads: threading the filesystem state through
every primitive of one run (`rglob`, open-for-read, chunked reads) returns
the filesystem unchanged, while computing exactly the result of
`find_duplicates_basic`. -/
theorem scan_leaves_fs_unchanged (fs : FS) :
    (find_duplicates_basicST fs).2 = fs ∧
    (find_duplicates_basicST fs).1 = find_duplicates_basic fs := by
  unfold find_duplicates_basicST rglobST find_duplicates_basic
  rw [scanFilesST_eq]
  cases scanFiles fs [] <;> simp

theorem md5Bytes_length (msg : List ℕ) : (md5Bytes msg).length = 16 := by
  simp [md5Bytes, natLEBytes]

theorem natLEBytes_lt (n k : ℕ) : ∀ b ∈ natLEBytes n k, b < 256 := by
  intro b hb
  simp only [natLEBytes, List.mem_map, List.mem_range] at hb
  obtain ⟨i, _, hbe⟩ := hb
  omega

theorem md5Bytes_lt (msg : List ℕ) : ∀ b ∈ md5Bytes msg, b < 256 := by
  intro b hb
  rw [md5Bytes] at hb
  rcases List.mem_append.mp hb with h | h
  · rcases List.mem_append.mp h with h | h
    · rcases List.mem_append.mp h with h | h
      · exact natLEBytes_lt _ _ b h
      · exact natLEBytes_lt _ _ b h
    · exact natLEBytes_lt _ _ b h
  · exact natLEBytes_lt _ _ b h

/-- The sixteen lowercase hexadecimal characters. -/
def hexCharList : List Char := "0123456789abcdef".data

theorem hexDigitChar_mem : ∀ n, n < 16 → hexDigitChar n ∈ hexCharList := by decide

theorem flatMap_byteToHex_length (bs : List ℕ) :
    (bs.flatMap byteToHex).length = 2 * bs.length := by
  induction bs with
  | nil => simp
  | cons b rest ih =>
    simp only [List.flatMap_cons, List.length_append, List.length_cons, ih, byteToHex]
    simp
    omega

/-- C10: for every byte content, the fingerprint `get_file_hash` returns is
a string of exactly 32 characters, all of them lowercase hexadecimal
digits, independent of the content's size or value. -/
theorem hash_is_32_lowercase_hex (content : List ℕ) :
    (get_file_hash_content content).length = 32 ∧
    ∀ c ∈ (get_file_hash_content content).data, c ∈ hexCharList := by
  rw [get_file_hash_content_eq]
  constructor
  · show (String.mk ((md5Bytes content).flatMap byteToHex)).length = 32
    have hsm : (String.mk ((md5Bytes content).flatMap byteToHex)).length =
        ((md5Bytes content).flatMap byteToHex).length := rfl
    rw [hsm, flatMap_byteToHex_length, md5Bytes_length]
  · intro c hc
    have hc' : c ∈ (md5Bytes content).flatMap byteToHex := hc
    rw [List.mem_flatMap] at hc'
    obtain ⟨b, hb, hcb⟩ := hc'
    have hblt := md5Bytes_lt content b hb
    simp only [byteToHex, List.mem_cons, List.not_mem_nil, or_false] at hcb
    rcases hcb with rfl | rfl
    · exact hexDigitChar_mem _ (by omega)
    · exact hexDigitChar_mem _ (Nat.mod_lt _ (by norm_num))

/-! ## C4: per-file read errors -/

/-- A run in which the first regular file raises on open (permission
denied) while two later files are byte-identical duplicates. -/
def fsErr : FS :=
  [⟨"a.txt", true, .error "PermissionError"⟩,
   ⟨"b.txt", true, .ok []⟩,
   ⟨"c.txt", true, .ok []⟩]

/-- The unreadable file of `fsErr`. -/
def eErr : Entry := ⟨"a.txt", true, .error "PermissionError"⟩

/-- C4 counterexample: with one unreadable file among readable duplicates,
`find_duplicates_basic` returns no mapping at all — the per-file error is
not skipped and recorded, it aborts the run before the duplicates of
`b.txt` and `c.txt` can be reported. -/
theorem error_recovery_refuted :
    find_duplicates_basic fsErr = .error "PermissionError" := by decide

theorem scanFiles_error_of_mem (e : Entry) (hf : e.isFile = true) (msg : String)
    (hd : e.data = .error msg) :
    ∀ (fs : FS), e ∈ fs → ∀ idx, ∃ m, scanFiles fs idx = .error m := by
  intro fs
  induction fs with
  | nil => intro he; simp at he
  | cons e' rest ih =>
    intro he idx
    rcases List.mem_cons.mp he with heq | hmem
    · subst heq
      exact ⟨msg, by simp [scanFiles, hf, get_file_hash, hd]⟩
    · cases hf' : e'.isFile with
      | false => simpa [scanFiles, hf'] using ih hmem idx
      | true =>
        cases hg : get_file_hash e' with
        | error m => exact ⟨m, by simp [scanFiles, hf', hg]⟩
        | ok h => simpa [scanFiles, hf', hg] using ih hmem _

/-- C4 amended: a read error on any discovered regular file (permission
denied, or the file disappearing between discovery and open) propagates out
of `find_duplicates_basic` and aborts the whole run with that exception;
no mapping is returned, no path is skipped, and no diagnostics are
recorded. -/
theorem error_aborts_whole_run (fs : FS) (e : Entry) (he : e ∈ fs)
    (hf : e.isFile = true) (msg : String) (hd : e.data = .error msg) :
    ∃ m, find_duplicates_basic fs = .error m := by
  obtain ⟨m, hm⟩ := scanFiles_error_of_mem e hf msg hd fs he []
  exact ⟨m, by simp [find_duplicates_basic, hm]⟩

/-- C4 witness: the amended abort behaviour on `fsErr`. -/
theorem error_aborts_whole_run_witness :
    (eErr ∈ fsErr ∧ eErr.isFile = true ∧ eErr.data = .error "PermissionError") ∧
    ∃ m, find_duplicates_basic fsErr = .error m :=
  ⟨⟨by decide, by decide, by decide⟩,
    error_aborts_whole_run fsErr eErr (by decide) (by decide) "PermissionError"
      (by decide)⟩

/-! ## C8: the `__main__` report -/

/-- A duplicates dict holding one group: the fingerprint of `"abc"` with
two member paths. -/
def dupB : Index := [("900150983cd24fb0d6963f7d28e17f72", ["x/a.txt", "y/b.txt"])]

/-- C8: evaluating the report at a one-group dict and at the empty dict.
The group header is the literal three-character line `Hash:` — the
fingerprint value is absent because the f-string contains no placeholder —
the separator is the literal two-character line `/n` rather than a blank
line, and an empty dict prints nothing rather than a "no duplicates"
message. -/
theorem report_format_diverges :
    reportLines dupB = ["Hash:", " - x/a.txt", " - y/b.txt", "/n"] ∧
    reportLines [] = [] := by decide

/-! ## C7: size separation and MD5 collisions -/

/-- Little-endian byte-list decoding, used to count possible digests. -/
def bytesToNat : List ℕ → ℕ
  | [] => 0
  | b :: bs => b + 256 * bytesToNat bs

theorem bytesToNat_lt : ∀ (l : List ℕ), (∀ b ∈ l, b < 256) →
    bytesToNat l < 256 ^ l.length := by
  intro l
  induction l with
  | nil => intro _; simp [bytesToNat]
  | cons b bs ih =>
    intro hball
    have hb : b < 256 := hball b (List.mem_cons_self ..)
    have hbs := ih fun x hx => hball x (List.mem_cons_of_mem _ hx)
    simp only [bytesToNat, List.length_cons, pow_succ]
    omega

theorem bytesToNat_inj : ∀ (a b : List ℕ), a.length = b.length →
    (∀ x ∈ a, x < 256) → (∀ x ∈ b, x < 256) →
    bytesToNat a = bytesToNat b → a = b := by
  intro a
  induction a with
  | nil =>
    intro b hlen _ _ _
    cases b with
    | nil => rfl
    | cons y ys => simp at hlen
  | cons x xs ih =>
    intro b hlen ha hb heq
    cases b with
    | nil => simp at hlen
    | cons y ys =>
      have hx : x < 256 := ha x (List.mem_cons_self ..)
      have hy : y < 256 := hb y (List.mem_cons_self ..)
      simp only [bytesToNat] at heq
      have hxy : x = y := by omega
      have hrest : bytesToNat xs = bytesToNat ys := by omega
      have hxs := ih ys (by simpa using hlen)
        (fun z hz => ha z (List.mem_cons_of_mem _ hz))
        (fun z hz => hb z (List.mem_cons_of_mem _ hz)) hrest
      rw [hxy, hxs]

/-- The digest decoded as a number below `2 ^ 128`. -/
def md5Nat (msg : List ℕ) : ℕ := bytesToNat (md5Bytes msg)

theorem md5Nat_lt (msg : List ℕ) : md5Nat msg < 2 ^ 128 := by
  have h := bytesToNat_lt (md5Bytes msg) (md5Bytes_lt msg)
  rw [md5Bytes_length] at h
  have h2 : (256 : ℕ) ^ 16 = 2 ^ 128 := by norm_num
  rwa [md5Nat, ← h2]

/-- There are more sizes than digests: two zero-filled files of different
lengths share their MD5 digest. -/
theorem md5_size_collision :
    ∃ m n : ℕ, m ≠ n ∧ md5Bytes (List.replicate m 0) = md5Bytes (List.replicate n 0) := by
  have hcard : (Finset.range (2 ^ 128)).card < (Finset.range (2 ^ 128 + 1)).card := by
    simp
  have hmaps : ∀ a ∈ Finset.range (2 ^ 128 + 1),
      md5Nat (List.replicate a 0) ∈ Finset.range (2 ^ 128) := fun a _ =>
    Finset.mem_range.mpr (md5Nat_lt _)
  obtain ⟨m, _, n, _, hne, heq⟩ :=
    Finset.exists_ne_map_eq_of_card_lt_of_maps_to hcard hmaps
  exact ⟨m, n, hne,
    bytesToNat_inj _ _ (by rw [md5Bytes_length, md5Bytes_length])
      (md5Bytes_lt _) (md5Bytes_lt _) heq⟩

/-- The C7 claim as stated: two regular files of one error-free run whose
byte lengths differ never appear together in a returned group. -/
def sizeSeparationClaim : Prop :=
  ∀ (fs : FS) (e1 e2 : Entry), AllReadable fs → e1 ∈ fs → e2 ∈ fs →
    e1.isFile = true → e2.isFile = true →
    (contentD e1).length ≠ (contentD e2).length →
    ∀ dup, find_duplicates_basic fs = .ok dup →
      ∀ g ∈ dup, ¬ (e1.path ∈ g.2 ∧ e2.path ∈ g.2)

/-- C7 counterexample: the claim is false — grouping keys on the digest
alone, and MD5 digests collide across different sizes, so some pair of
files of different sizes lands in one group. -/
theorem size_separation_refuted : ¬ sizeSeparationClaim := by
  intro hP
  obtain ⟨m, n, hmn, hbytes⟩ := md5_size_collision
  have hhash : hashOf ⟨"a", true, .ok (List.replicate m 0)⟩ =
      hashOf ⟨"b", true, .ok (List.replicate n 0)⟩ := by
    show get_file_hash_content (List.replicate m 0) =
      get_file_hash_content (List.replicate n 0)
    rw [get_file_hash_content_eq, get_file_hash_content_eq]
    exact congrArg (fun bs => String.mk (bs.flatMap byteToHex)) hbytes
  have hr : AllReadable [⟨"a", true, .ok (List.replicate m 0)⟩,
      ⟨"b", true, .ok (List.replicate n 0)⟩] := by
    intro e he _
    rcases List.mem_cons.mp he with rfl | he2
    · rfl
    rcases List.mem_cons.mp he2 with rfl | h0
    · rfl
    · simp at h0
  obtain ⟨dup, hdup, g, hg, _, hp1, hp2⟩ :=
    mem_dup_group _ hr ⟨"a", true, .ok (List.replicate m 0)⟩
      ⟨"b", true, .ok (List.replicate n 0)⟩
      (List.mem_cons_self ..) (List.mem_cons_of_mem _ (List.mem_cons_self ..))
      rfl rfl (by simp) hhash
  have hlen : (contentD (⟨"a", true, .ok (List.replicate m 0)⟩ : Entry)).length ≠
      (contentD (⟨"b", true, .ok (List.replicate n 0)⟩ : Entry)).length := by
    simpa [contentD] using hmn
  exact hP _ _ _ hr (List.mem_cons_self ..)
    (List.mem_cons_of_mem _ (List.mem_cons_self ..)) rfl rfl hlen dup hdup g hg
    ⟨hp1, hp2⟩

theorem path_unique_entry (fs : FS) (hn : (filePaths fs).Nodup) (a b : Entry)
    (ha : a ∈ fs) (hb : b ∈ fs) (hfa : a.isFile = true) (hfb : b.isFile = true)
    (hp : a.path = b.path) : a = b := by
  have ha' : a ∈ fs.filter (fun e => e.isFile) :=
    List.mem_filter.mpr ⟨ha, by simp [hfa]⟩
  have hb' : b ∈ fs.filter (fun e => e.isFile) :=
    List.mem_filter.mpr ⟨hb, by simp [hfb]⟩
  exact List.inj_on_of_nodup_map hn ha' hb' hp

/-- C7 amended: group membership is decided by fingerprint equality alone —
two regular files whose MD5 fingerprints differ never appear together in
any returned group; differing sizes keep files apart exactly when their
digests differ, and an MD5 collision across sizes (which exists) defeats
the stated size-separation property. -/
theorem different_fingerprints_never_grouped (fs : FS) (hr : AllReadable fs)
    (hn : (filePaths fs).Nodup) (e1 e2 : Entry)
    (h1 : e1 ∈ fs) (h2 : e2 ∈ fs) (hf1 : e1.isFile = true) (hf2 : e2.isFile = true)
    (hh : hashOf e1 ≠ hashOf e2)
    (dup : Index) (hdup : find_duplicates_basic fs = .ok dup)
    (g : String × List String) (hg : g ∈ dup) :
    ¬ (e1.path ∈ g.2 ∧ e2.path ∈ g.2) := by
  rintro ⟨hp1, hp2⟩
  have hok := find_duplicates_basic_ok fs hr
  rw [hdup] at hok
  have hdupeq : dup = (fullIndex fs).filter fun b => 1 < b.2.length := by
    injection hok
  have hgfull : g ∈ fullIndex fs := (List.mem_filter.mp (hdupeq ▸ hg)).1
  have hnkeys : (idxKeys (fullIndex fs)).Nodup :=
    scanFilesPure_keys_nodup fs [] (by simp [idxKeys])
  have hfind : idxFind (fullIndex fs) g.1 = g.2 := by
    refine idxFind_of_mem _ g.1 g.2 hnkeys ?_
    cases g; exact hgfull
  have hbucket : g.2 = dupFilesWith fs g.1 := by
    rw [← hfind]
    simpa [idxFind] using scanFilesPure_find fs g.1 []
  have hkey : ∀ e ∈ fs, e.isFile = true → e.path ∈ g.2 → hashOf e = g.1 := by
    intro e he hfe hpe
    rw [hbucket] at hpe
    unfold dupFilesWith at hpe
    obtain ⟨e', he', hpe'⟩ := List.mem_map.mp hpe
    obtain ⟨he'fs, hpred⟩ := List.mem_filter.mp he'
    simp only [Bool.and_eq_true, beq_iff_eq] at hpred
    have : e' = e := path_unique_entry fs hn e' e he'fs he hpred.1 hfe hpe'
    rw [← this]
    exact hpred.2
  exact hh ((hkey e1 h1 hf1 hp1).trans (hkey e2 h2 hf2 hp2).symm)

/-- Run with a duplicate pair (`[0]` in `a.bin` and `c.bin`) and one
different singleton (`[1]` in `b.bin`). -/
def fsC : FS :=
  [⟨"a.bin", true, .ok [0]⟩, ⟨"b.bin", true, .ok [1]⟩, ⟨"c.bin", true, .ok [0]⟩]

/-- The `[0]` file of `fsC`. -/
def eCa : Entry := ⟨"a.bin", true, .ok [0]⟩

/-- The `[1]` file of `fsC`. -/
def eCb : Entry := ⟨"b.bin", true, .ok [1]⟩

/-- C7 witness: in `fsC` the files `a.bin` (`[0]`) and `b.bin` (`[1]`) have
different fingerprints and indeed never share the one returned group. -/
theorem different_fingerprints_never_grouped_witness :
    (AllReadable fsC ∧ (filePaths fsC).Nodup ∧ eCa ∈ fsC ∧ eCb ∈ fsC ∧
      hashOf eCa ≠ hashOf eCb ∧
      find_duplicates_basic fsC = .ok [(hashOf eCa, ["a.bin", "c.bin"])]) ∧
    ¬ (eCa.path ∈ (hashOf eCa, ["a.bin", "c.bin"]).2 ∧
        eCb.path ∈ (hashOf eCa, ["a.bin", "c.bin"]).2) :=
  ⟨⟨by decide, by decide, by decide, by decide, by decide, by decide⟩,
    different_fingerprints_never_grouped fsC (by decide) (by decide) eCa eCb
      (by decide) (by decide) (by decide) (by decide) (by decide)
      [(hashOf eCa, ["a.bin", "c.bin"])] (by decide)
      (hashOf eCa, ["a.bin", "c.bin"]) (by decide)⟩

end FindDup
